import Mathlib

/-!
# Verification of `pc.CurveIterator` (src/src/math/curve-iterator.js)

Shallow embedding of the curve iterator. JavaScript numbers are modelled by
exact rationals `ℚ`; the two infinities used as span sentinels (`this.left`,
`this.right`) are modelled by the extended type `XQ`. Over exact rationals the
only way a division of finite operands can be non-finite is a zero denominator,
so every `isFinite(x/y) ? x/y : 0` guard of the source is rendered as
`if y = 0 then 0 else x/y`.

Keys are stored by the source as two-element arrays `[time, value]`; here a key
is a structure with fields `t` (index 0) and `v` (index 1).
-/

namespace CurveIter

/-- Extended rational: a JS number that may be `-Infinity` or `+Infinity`.
Only the span bounds `left`/`right` ever take infinite values. -/
inductive XQ where
  | negInf : XQ
  | fin : ℚ → XQ
  | posInf : XQ
deriving DecidableEq, Repr

/-- Comparison `q < x` for a finite `q` and an extended `x`. -/
def XQ.qltx (q : ℚ) : XQ → Bool
  | .negInf => false
  | .fin r => decide (q < r)
  | .posInf => true

/-- Comparison `x < q` for an extended `x` and a finite `q`. -/
def XQ.xltq : XQ → ℚ → Bool
  | .negInf, _ => true
  | .fin r, q => decide (r < q)
  | .posInf, _ => false

/-- Comparison `x ≤ q` for an extended `x` and a finite `q`. -/
def XQ.xleq : XQ → ℚ → Bool
  | .negInf, _ => true
  | .fin r, q => decide (r ≤ q)
  | .posInf, _ => false

/-- The finite part of an extended rational (used only where the source has
already guarded with `recip === 0`, which excludes the infinite cases). -/
def XQ.toQ : XQ → ℚ
  | .negInf => 0
  | .fin q => q
  | .posInf => 0

/-- The interpolation-kind constants `pc.CURVE_*` referenced by the file. -/
inductive CurveType where
  | CURVE_LINEAR : CurveType
  | CURVE_SMOOTHSTEP : CurveType
  | CURVE_CATMULL : CurveType
  | CURVE_CARDINAL : CurveType
  | CURVE_STEP : CurveType
  | CURVE_CARDINAL_STABLE : CurveType
deriving DecidableEq, Repr

/-- A keyframe `[time, value]`: field `t` is entry `[0]`, field `v` is `[1]`. -/
structure Key where
  t : ℚ
  v : ℚ
deriving DecidableEq, Repr

/-- The externally owned curve: sorted key list, interpolation kind, tension. -/
structure Curve where
  keys : List Key
  type : CurveType
  tension : ℚ
deriving DecidableEq, Repr

/-- The mutable fields of a `pc.CurveIterator` instance. -/
structure IterState where
  time_ : ℚ
  left : XQ
  right : XQ
  recip : ℚ
  p0 : ℚ
  p1 : ℚ
  m0 : ℚ
  m1 : ℚ
deriving DecidableEq, Repr

/-- Key access `keys[i]`. JS array indexing out of range yields `undefined` and the
subsequent `[0]` access throws; every access reachable from `reset` is proved
in bounds (see the safety theorem for C9), so a total default is used here. -/
def kget (keys : List Key) (i : Nat) : Key := keys.getD i ⟨0, 0⟩

/-- The linear scan of `reset`, acting on the tail `keys[1..]` of the key list:
`index = 0; while (time >= keys[index + 1][0]) index++;` — the result is the
number of loop iterations, i.e. the first position `j` in the tail with
`tail[j].t > time` (or the tail's length when no such position exists; the
enclosing branch guard `time < keys[len-1][0]` rules that out). -/
def scanIdx (time : ℚ) : List Key → Nat
  | [] => 0
  | k :: rest => if k.t ≤ time then scanIdx time rest + 1 else 0

/-- Source `_isHermite`: membership of the curve type in
`[CURVE_CATMULL, CURVE_CARDINAL, CURVE_CARDINAL_STABLE]`. -/
def isHermite (ty : CurveType) : Bool :=
  ty == CurveType.CURVE_CATMULL || ty == CurveType.CURVE_CARDINAL ||
    ty == CurveType.CURVE_CARDINAL_STABLE

/-- Source `_calcTangents(keys, index)`: returns the pair written to
`(this.m0, this.m1)`. `a` and `d` are the neighbours of the span keys
`b = keys[index]`, `c = keys[index+1]`, synthesised by linear extrapolation at
the ends of the key list. Each `isFinite(s) ? s : 0` guard becomes a test of
the corresponding denominator against `0` (exact arithmetic). -/
def calcTangents (cu : Curve) (keys : List Key) (index : Nat) : ℚ × ℚ :=
  let b := kget keys index
  let c := kget keys (index + 1)
  let a : Key :=
    if index = 0 then
      ⟨(kget keys 0).t + ((kget keys 0).t - (kget keys 1).t),
       (kget keys 0).v + ((kget keys 0).v - (kget keys 1).v)⟩
    else kget keys (index - 1)
  let d : Key :=
    if index = keys.length - 2 then
      ⟨c.t + (c.t - b.t), c.v + (c.v - b.v)⟩
    else kget keys (index + 2)
  if cu.type = CurveType.CURVE_CARDINAL_STABLE then
    -- var s1_ = 2 * (c[0] - b[0]) / (c[0] - a[0]);
    -- var s2_ = 2 * (c[0] - b[0]) / (d[0] - b[0]);
    (cu.tension * (if c.t - a.t = 0 then 0 else 2 * (c.t - b.t) / (c.t - a.t)) *
       (c.v - a.v),
     cu.tension * (if d.t - b.t = 0 then 0 else 2 * (c.t - b.t) / (d.t - b.t)) *
       (d.v - b.v))
  else
    -- var s1 = (c[0] - b[0]) / (b[0] - a[0]);
    -- var s2 = (c[0] - b[0]) / (d[0] - c[0]);
    let a1 := b.v + (a.v - b.v) * (if b.t - a.t = 0 then 0 else (c.t - b.t) / (b.t - a.t))
    let d1 := c.v + (d.v - c.v) * (if d.t - c.t = 0 then 0 else (c.t - b.t) / (d.t - c.t))
    let tension := if cu.type = CurveType.CURVE_CATMULL then (1 : ℚ) / 2 else cu.tension
    (tension * (c.v - a1), tension * (d1 - b.v))

/-- Source `reset(time)`. The prior state `s` is an argument because the in-range
branch assigns `m0`/`m1` only when the curve is Hermite-family: for the other
kinds those two fields keep their previous values. All other fields are
overwritten in every branch. -/
def reset (c : Curve) (time : ℚ) (s : IterState) : IterState :=
  let keys := c.keys
  let len := keys.length
  if len = 0 then
    -- curve is empty
    ⟨time, .negInf, .posInf, 0, 0, 0, 0, 0⟩
  else if time < (kget keys 0).t then
    -- iterator falls to the left of the start of the curve
    ⟨time, .negInf, .fin (kget keys 0).t, 0, (kget keys 0).v, (kget keys 0).v, 0, 0⟩
  else if (kget keys (len - 1)).t ≤ time then
    -- iterator falls to the right of the end of the curve
    ⟨time, .fin (kget keys (len - 1)).t, .posInf, 0,
     (kget keys (len - 1)).v, (kget keys (len - 1)).v, 0, 0⟩
  else
    -- iterator falls within the bounds of the curve
    let index := scanIdx time keys.tail
    let l := (kget keys index).t
    let r := (kget keys (index + 1)).t
    -- var diff = 1.0 / (this.right - this.left);
    -- this.recip = (isFinite(diff) ? diff : 0);
    ⟨time, .fin l, .fin r, if r - l = 0 then 0 else 1 / (r - l),
     (kget keys index).v, (kget keys (index + 1)).v,
     if isHermite c.type then (calcTangents c keys index).1 else s.m0,
     if isHermite c.type then (calcTangents c keys index).2 else s.m1⟩

/-- Source `_evaluateHermite(p0, p1, m0, m1, t)` — defined by the file, but never
called: `evaluate` misspells its name (see `evaluate`). -/
def evaluateHermite (p0 p1 m0 m1 t : ℚ) : ℚ :=
  let t2 := t * t
  let twot := t + t
  let omt := 1 - t
  let omt2 := omt * omt
  p0 * ((1 + twot) * omt2) +
    m0 * (t * omt2) +
    p1 * (t2 * (3 - twot)) +
    m1 * (t2 * (t - 1))

/-- Modelled from the spec: `pc.math.lerp` (code not under src/), the linear
interpolation of `p0, p1` by `t`. -/
def lerp (a b t : ℚ) : ℚ := a + (b - a) * t

/-- Source `evaluate()`. The Hermite-family branch of the source reads
`this._evaluateHermite2(this.p0, this.p1, this.m0, this.m1, t)`; no method of
that name is defined anywhere in the repository (the file defines
`_evaluateHermite`), so in JavaScript that branch throws a `TypeError`.
The thrown call is modelled as `none`; every returning branch is `some`. -/
def evaluate (c : Curve) (s : IterState) : Option ℚ :=
  if c.type = CurveType.CURVE_STEP then
    some s.p0
  else
    -- var t = (this.recip === 0) ? 0 : (this.time_ - this.left) * this.recip;
    -- (when recip ≠ 0 the source's left is finite, so XQ.toQ is exact there)
    let t := if s.recip = 0 then 0 else (s.time_ - s.left.toQ) * s.recip
    if c.type = CurveType.CURVE_LINEAR then
      some (lerp s.p0 s.p1 t)
    else if c.type = CurveType.CURVE_SMOOTHSTEP then
      some (lerp s.p0 s.p1 (t * t * (3 - 2 * t)))
    else
      none

/-- Source `advance(amount)`: add `amount` to the time, then re-seek only when the
new time has left the cached span on the side being moved towards. -/
def advance (c : Curve) (s : IterState) (amount : ℚ) : IterState :=
  let s1 : IterState := { s with time_ := s.time_ + amount }
  if 0 ≤ amount then
    if XQ.xltq s1.right s1.time_ then reset c s1.time_ s1 else s1
  else if XQ.qltx s1.time_ s1.left then reset c s1.time_ s1
  else s1

/-- Source `value(time)`: re-seek when `time < left || time >= right`, otherwise just
move the time inside the cached span; returns the new state and `evaluate()`. -/
def value (c : Curve) (s : IterState) (time : ℚ) : IterState × Option ℚ :=
  let s1 : IterState :=
    if XQ.qltx time s.left || XQ.xleq s.right time then reset c time s
    else { s with time_ := time }
  (s1, evaluate c s1)

/-- The field values set by the constructor before it calls `reset`. -/
def initState (time : ℚ) : IterState :=
  ⟨time, .negInf, .posInf, 0, 0, 0, 0, 0⟩

/-- Constructor `new pc.CurveIterator(curve, time)`. -/
def mkIterator (c : Curve) (time : ℚ) : IterState :=
  reset c time (initState time)

/-- Run `advance(a); evaluate()` for each listed amount, collecting results. -/
def advanceRun (c : Curve) : IterState → List ℚ → List (Option ℚ)
  | _, [] => []
  | s, a :: as =>
    let s1 := advance c s a
    evaluate c s1 :: advanceRun c s1 as

/-- Run `value(t)` for each listed time, collecting results. -/
def valueRun (c : Curve) : IterState → List ℚ → List (Option ℚ)
  | _, [] => []
  | s, t :: ts =>
    let r := value c s t
    r.2 :: valueRun c r.1 ts

/-- The cumulative times reached by a sequence of `advance` amounts. -/
def cumTimes (t0 : ℚ) : List ℚ → List ℚ
  | [] => []
  | a :: as => (t0 + a) :: cumTimes (t0 + a) as

/-- Key times strictly increase (the documented precondition on curves). -/
def sortedKeys (keys : List Key) : Prop :=
  List.Pairwise (fun a b => a.t < b.t) keys

instance (keys : List Key) : Decidable (sortedKeys keys) := by
  unfold sortedKeys; infer_instance

/-- Spec-side description for Step curves: the value of the greatest key whose
time is `≤ t`, or the first key's value when no key time is `≤ t`. -/
def stepRef (keys : List Key) (t : ℚ) : ℚ :=
  ((keys.filter fun k => decide (k.t ≤ t)).getLastD (kget keys 0)).v

/-- The span invariant: `left ≤ time_ < right` in the extended order. -/
def spanInv (s : IterState) : Prop :=
  s.left.xleq s.time_ = true ∧ XQ.qltx s.time_ s.right = true

/-- Cumulative predicate: along the whole advance trajectory, no step lands
exactly on the current cached right bound. -/
def noRightHit (c : Curve) : IterState → List ℚ → Prop
  | _, [] => True
  | s, a :: as => XQ.fin (s.time_ + a) ≠ s.right ∧ noRightHit c (advance c s a) as

/-- A two-key Step curve: value 0 on `[0, 10)`, value 10 from time 10 on. -/
def stepTwoKeys : Curve := ⟨[⟨0, 0⟩, ⟨10, 10⟩], CurveType.CURVE_STEP, 0⟩

/-- A two-key Linear curve through `(0, 0)` and `(10, 10)`. -/
def linTwoKeys : Curve := ⟨[⟨0, 0⟩, ⟨10, 10⟩], CurveType.CURVE_LINEAR, 0⟩

/-- A two-key Catmull-Rom curve through `(0, 0)` and `(10, 10)`. -/
def catmullTwoKeys : Curve := ⟨[⟨0, 0⟩, ⟨10, 10⟩], CurveType.CURVE_CATMULL, 0⟩

/-- An empty Step curve. -/
def emptyStep : Curve := ⟨[], CurveType.CURVE_STEP, 0⟩

/-- An empty Linear curve. -/
def emptyLinear : Curve := ⟨[], CurveType.CURVE_LINEAR, 0⟩

/-- An empty Smoothstep curve. -/
def emptySmooth : Curve := ⟨[], CurveType.CURVE_SMOOTHSTEP, 0⟩

/-- An empty Catmull-Rom curve. -/
def emptyCatmull : Curve := ⟨[], CurveType.CURVE_CATMULL, 0⟩

/-- A single-key Catmull-Rom curve. -/
def singleCatmull : Curve := ⟨[⟨0, 5⟩], CurveType.CURVE_CATMULL, 0⟩

/-- A Linear curve with two coincident key times. -/
def coincidentLinear : Curve := ⟨[⟨0, 1⟩, ⟨0, 2⟩], CurveType.CURVE_LINEAR, 0⟩

/-- A three-key Step curve. -/
def stepThreeKeys : Curve := ⟨[⟨0, 1⟩, ⟨10, 2⟩, ⟨20, 3⟩], CurveType.CURVE_STEP, 0⟩

/-- A four-key CardinalStable curve with tension 1/2. -/
def cardStableFour : Curve :=
  ⟨[⟨0, 1⟩, ⟨10, 3⟩, ⟨20, 6⟩, ⟨40, 10⟩], CurveType.CURVE_CARDINAL_STABLE, 1 / 2⟩

/-! ### Order facts about the extended comparisons -/

theorem xleq_of_not_qltx {x : XQ} {t : ℚ} (h : XQ.qltx t x = false) :
    x.xleq t = true := by
  cases x with
  | negInf => rfl
  | fin r =>
    simp only [XQ.qltx, decide_eq_false_iff_not, not_lt] at h
    simpa [XQ.xleq] using h
  | posInf => simp [XQ.qltx] at h

theorem qltx_of_not_xleq {x : XQ} {t : ℚ} (h : x.xleq t = false) :
    XQ.qltx t x = true := by
  cases x with
  | negInf => simp [XQ.xleq] at h
  | fin r => simp [XQ.xleq] at h; simpa [XQ.qltx] using h
  | posInf => rfl

theorem not_qltx_of_xleq {x : XQ} {t : ℚ} (h : x.xleq t = true) :
    XQ.qltx t x = false := by
  cases x with
  | negInf => rfl
  | fin r => simp [XQ.xleq] at h; simpa [XQ.qltx] using h
  | posInf => simp [XQ.xleq] at h

theorem xleq_false_of_qltx {x : XQ} {t : ℚ} (h : XQ.qltx t x = true) :
    x.xleq t = false := by
  cases x with
  | negInf => simp [XQ.qltx] at h
  | fin r => simp [XQ.qltx] at h; simpa [XQ.xleq] using h
  | posInf => rfl

theorem xleq_mono {x : XQ} {t t' : ℚ} (h : x.xleq t = true) (htt : t ≤ t') :
    x.xleq t' = true := by
  cases x with
  | negInf => rfl
  | fin r => simp [XQ.xleq] at h ⊢; linarith
  | posInf => simp [XQ.xleq] at h

theorem qltx_mono {x : XQ} {t t' : ℚ} (h : XQ.qltx t x = true) (htt : t' ≤ t) :
    XQ.qltx t' x = true := by
  cases x with
  | negInf => simp [XQ.qltx] at h
  | fin r => simp [XQ.qltx] at h ⊢; linarith
  | posInf => rfl

theorem xltq_eq_xleq_of_ne {x : XQ} {t : ℚ} (h : XQ.fin t ≠ x) :
    x.xltq t = x.xleq t := by
  cases x with
  | negInf => rfl
  | fin r =>
    have hrt : r ≠ t := fun he => h (by rw [he])
    simp only [XQ.xltq, XQ.xleq]
    by_cases hle : r ≤ t
    · simp [hle, lt_of_le_of_ne hle hrt]
    · have hlt : ¬ r < t := fun hlt => hle hlt.le
      simp [hle, hlt]
  | posInf => rfl

/-! ### Facts about the linear scan -/

theorem scanIdx_le_length (t : ℚ) : ∀ l : List Key, scanIdx t l ≤ l.length
  | [] => Nat.le_refl 0
  | k :: rest => by
    by_cases h : k.t ≤ t
    · simpa [scanIdx, h] using scanIdx_le_length t rest
    · simp [scanIdx, h]

theorem all_le_of_scanIdx_eq_length (t : ℚ) :
    ∀ l : List Key, scanIdx t l = l.length → ∀ k ∈ l, k.t ≤ t
  | [], _, k, hk => absurd hk (List.not_mem_nil k)
  | k0 :: rest, h, k, hk => by
    by_cases hle : k0.t ≤ t
    · rcases List.mem_cons.1 hk with rfl | hk'
      · exact hle
      · simp only [scanIdx, hle, if_pos, List.length_cons] at h
        exact all_le_of_scanIdx_eq_length t rest (by omega) k hk'
    · simp [scanIdx, hle] at h

theorem t_lt_getD_scanIdx (t : ℚ) :
    ∀ l : List Key, scanIdx t l < l.length →
      t < (l.getD (scanIdx t l) ⟨0, 0⟩).t
  | [], h => by simp [scanIdx] at h
  | k0 :: rest, h => by
    by_cases hle : k0.t ≤ t
    · have hs : scanIdx t (k0 :: rest) = scanIdx t rest + 1 := by simp [scanIdx, hle]
      rw [hs] at h ⊢
      rw [List.getD_cons_succ]
      exact t_lt_getD_scanIdx t rest (by simpa using h)
    · have hs : scanIdx t (k0 :: rest) = 0 := by simp [scanIdx, hle]
      rw [hs, List.getD_cons_zero]
      exact not_le.mp hle

theorem getD_scanIdx_pred_le (t : ℚ) :
    ∀ l : List Key, 0 < scanIdx t l →
      (l.getD (scanIdx t l - 1) ⟨0, 0⟩).t ≤ t
  | [], h => by simp [scanIdx] at h
  | k0 :: rest, h => by
    by_cases hle : k0.t ≤ t
    · have hs : scanIdx t (k0 :: rest) = scanIdx t rest + 1 := by simp [scanIdx, hle]
      rw [hs]
      rcases Nat.eq_zero_or_pos (scanIdx t rest) with h0 | hpos
      · simpa [h0] using hle
      · have harith : scanIdx t rest + 1 - 1 = (scanIdx t rest - 1) + 1 := by omega
        rw [harith, List.getD_cons_succ]
        exact getD_scanIdx_pred_le t rest hpos
    · have hs : scanIdx t (k0 :: rest) = 0 := by simp [scanIdx, hle]
      rw [hs] at h; exact absurd h (by simp)

theorem kget_cons_succ (k : Key) (l : List Key) (i : Nat) :
    kget (k :: l) (i + 1) = kget l i := by
  simp [kget]

/-- In the in-range branch the scan index is strictly below `len - 1`, and the
keys it selects bracket the query time. -/
theorem interior_facts (keys : List Key) (t : ℚ) (hne : keys ≠ [])
    (h1 : ¬ t < (kget keys 0).t) (h2 : ¬ (kget keys (keys.length - 1)).t ≤ t) :
    scanIdx t keys.tail < keys.length - 1 ∧
      (kget keys (scanIdx t keys.tail)).t ≤ t ∧
      t < (kget keys (scanIdx t keys.tail + 1)).t := by
  obtain ⟨k0, tl, rfl⟩ := List.exists_cons_of_ne_nil hne
  simp only [List.tail_cons]
  have htl : tl ≠ [] := by
    intro hnil
    subst hnil
    exact h2 (by simpa [kget] using not_lt.mp h1)
  have htlpos : 0 < tl.length := List.length_pos.mpr htl
  have hlast : kget (k0 :: tl) ((k0 :: tl).length - 1) = tl.getD (tl.length - 1) ⟨0, 0⟩ := by
    have : (k0 :: tl).length - 1 = (tl.length - 1) + 1 := by
      simp only [List.length_cons]; omega
    rw [this, kget_cons_succ, kget]
  have hscan : scanIdx t tl < tl.length := by
    rcases Nat.lt_or_ge (scanIdx t tl) tl.length with h | h
    · exact h
    · exfalso
      have heq : scanIdx t tl = tl.length := Nat.le_antisymm (scanIdx_le_length t tl) h
      have hmem : tl.getD (tl.length - 1) ⟨0, 0⟩ ∈ tl := by
        rw [List.getD_eq_getElem _ _ (by omega)]
        exact List.getElem_mem _
      exact h2 (by rw [hlast]; exact all_le_of_scanIdx_eq_length t tl heq _ hmem)
  refine ⟨by simpa using hscan, ?_, ?_⟩
  · rcases Nat.eq_zero_or_pos (scanIdx t tl) with h0 | hpos
    · rw [h0]; exact not_lt.mp h1
    · have hsplit : scanIdx t tl = (scanIdx t tl - 1) + 1 := by omega
      rw [hsplit, kget_cons_succ]
      simpa [kget] using getD_scanIdx_pred_le t tl hpos
  · rw [kget_cons_succ]
    simpa [kget] using t_lt_getD_scanIdx t tl hscan

/-! ### Branch descriptions of reset -/

theorem reset_empty (c : Curve) (t : ℚ) (s : IterState) (h : c.keys = []) :
    reset c t s = ⟨t, .negInf, .posInf, 0, 0, 0, 0, 0⟩ := by
  simp [reset, h]

theorem reset_before (c : Curve) (t : ℚ) (s : IterState) (hne : c.keys ≠ [])
    (h : t < (kget c.keys 0).t) :
    reset c t s =
      ⟨t, .negInf, .fin (kget c.keys 0).t, 0,
       (kget c.keys 0).v, (kget c.keys 0).v, 0, 0⟩ := by
  have hlen : ¬ c.keys.length = 0 := by simpa [List.length_eq_zero] using hne
  simp [reset, hlen, h]

theorem reset_after (c : Curve) (t : ℚ) (s : IterState) (hne : c.keys ≠ [])
    (h1 : ¬ t < (kget c.keys 0).t) (h2 : (kget c.keys (c.keys.length - 1)).t ≤ t) :
    reset c t s =
      ⟨t, .fin (kget c.keys (c.keys.length - 1)).t, .posInf, 0,
       (kget c.keys (c.keys.length - 1)).v, (kget c.keys (c.keys.length - 1)).v, 0, 0⟩ := by
  have hlen : ¬ c.keys.length = 0 := by simpa [List.length_eq_zero] using hne
  simp [reset, hlen, h1, h2]

theorem reset_interior (c : Curve) (t : ℚ) (s : IterState) (hne : c.keys ≠ [])
    (h1 : ¬ t < (kget c.keys 0).t) (h2 : ¬ (kget c.keys (c.keys.length - 1)).t ≤ t) :
    reset c t s =
      ⟨t, .fin (kget c.keys (scanIdx t c.keys.tail)).t,
       .fin (kget c.keys (scanIdx t c.keys.tail + 1)).t,
       (if (kget c.keys (scanIdx t c.keys.tail + 1)).t -
            (kget c.keys (scanIdx t c.keys.tail)).t = 0 then 0
        else 1 / ((kget c.keys (scanIdx t c.keys.tail + 1)).t -
            (kget c.keys (scanIdx t c.keys.tail)).t)),
       (kget c.keys (scanIdx t c.keys.tail)).v,
       (kget c.keys (scanIdx t c.keys.tail + 1)).v,
       (if isHermite c.type then (calcTangents c c.keys (scanIdx t c.keys.tail)).1 else s.m0),
       (if isHermite c.type then (calcTangents c c.keys (scanIdx t c.keys.tail)).2 else s.m1)⟩ := by
  have hlen : ¬ c.keys.length = 0 := by simpa [List.length_eq_zero] using hne
  simp [reset, hlen, h1, h2]

theorem reset_time_ (c : Curve) (t : ℚ) (s : IterState) : (reset c t s).time_ = t := by
  simp only [reset]
  split_ifs <;> rfl

/-- Reset reads its prior state only through the `m0`/`m1` fields. -/
theorem reset_m_congr (c : Curve) (t : ℚ) {s s' : IterState}
    (h0 : s.m0 = s'.m0) (h1 : s.m1 = s'.m1) : reset c t s = reset c t s' := by
  unfold reset
  rw [h0, h1]

/-! ### The half-open span invariant -/

theorem reset_spanInv (c : Curve) (t : ℚ) (s : IterState) :
    spanInv (reset c t s) := by
  by_cases hnil : c.keys = []
  · rw [reset_empty c t s hnil]; exact ⟨rfl, rfl⟩
  · by_cases h1 : t < (kget c.keys 0).t
    · rw [reset_before c t s hnil h1]
      exact ⟨rfl, by simpa [spanInv, XQ.qltx] using h1⟩
    · by_cases h2 : (kget c.keys (c.keys.length - 1)).t ≤ t
      · rw [reset_after c t s hnil h1 h2]
        exact ⟨by simpa [spanInv, XQ.xleq] using h2, rfl⟩
      · rw [reset_interior c t s hnil h1 h2]
        obtain ⟨_, hle, hlt⟩ := interior_facts c.keys t hnil h1 h2
        exact ⟨by simpa [spanInv, XQ.xleq] using hle,
               by simpa [spanInv, XQ.qltx] using hlt⟩

/-! ### Relating advance and value -/

theorem value_fst_time (c : Curve) (s : IterState) (t : ℚ) :
    (value c s t).1.time_ = t := by
  unfold value
  split_ifs with h
  · exact reset_time_ c t s
  · rfl

theorem value_fst_spanInv (c : Curve) (s : IterState) (t : ℚ) :
    spanInv (value c s t).1 := by
  by_cases hcond : (XQ.qltx t s.left || s.right.xleq t) = true
  · have hv : (value c s t).1 = reset c t s := by simp [value, hcond]
    rw [hv]; exact reset_spanInv c t s
  · have hfalse : (XQ.qltx t s.left || s.right.xleq t) = false :=
      Bool.eq_false_iff.mpr hcond
    obtain ⟨hl, hr⟩ := Bool.or_eq_false_iff.mp hfalse
    have hv : (value c s t).1 = { s with time_ := t } := by simp [value, hfalse]
    rw [hv]
    exact ⟨xleq_of_not_qltx hl, qltx_of_not_xleq hr⟩

theorem advance_time_ (c : Curve) (s : IterState) (a : ℚ) :
    (advance c s a).time_ = s.time_ + a := by
  simp only [advance]
  split_ifs <;> first | rfl | exact reset_time_ c _ _

/-- With the span invariant in force, an `advance` that does not land exactly
on the cached right bound behaves exactly like `value` at the new time. -/
theorem advance_eq_value_fst (c : Curve) (s : IterState) (a : ℚ)
    (hinv : spanInv s) (hne : XQ.fin (s.time_ + a) ≠ s.right) :
    advance c s a = (value c s (s.time_ + a)).1 := by
  obtain ⟨hl, hr⟩ := hinv
  by_cases ha : 0 ≤ a
  · have h1 : XQ.qltx (s.time_ + a) s.left = false :=
      not_qltx_of_xleq (xleq_mono hl (by linarith))
    have h2 : s.right.xltq (s.time_ + a) = s.right.xleq (s.time_ + a) :=
      xltq_eq_xleq_of_ne hne
    simp only [advance, value, ha, if_true, h1, Bool.false_or, h2]
    split_ifs with h3
    · exact reset_m_congr c _ rfl rfl
    · rfl
  · have h2 : s.right.xleq (s.time_ + a) = false :=
      xleq_false_of_qltx (qltx_mono hr (by linarith [not_le.mp ha]))
    simp only [advance, value, ha, if_false, h2, Bool.or_false]
    split_ifs with h3
    · exact reset_m_congr c _ rfl rfl
    · rfl

theorem advanceRun_eq_valueRun (c : Curve) :
    ∀ (as : List ℚ) (s : IterState), spanInv s → noRightHit c s as →
      advanceRun c s as = valueRun c s (cumTimes s.time_ as)
  | [], _, _, _ => rfl
  | a :: as, s, hinv, hnr => by
    obtain ⟨hne, hrest⟩ := hnr
    have hstep : advance c s a = (value c s (s.time_ + a)).1 :=
      advance_eq_value_fst c s a hinv hne
    simp only [advanceRun, valueRun, cumTimes, List.cons.injEq]
    refine ⟨?_, ?_⟩
    · rw [hstep]; rfl
    · rw [hstep] at hrest ⊢
      have hrec := advanceRun_eq_valueRun c as ((value c s (s.time_ + a)).1)
        (value_fst_spanInv c s (s.time_ + a)) hrest
      rwa [value_fst_time] at hrec

/-! ### Step-curve lookup -/

theorem getLastD_eq_kget_last :
    ∀ (l : List Key) (a d : Key),
      (a :: l).getLastD d = kget (a :: l) ((a :: l).length - 1)
  | [], _, _ => rfl
  | b :: l', a, d => by
    rw [List.getLastD_cons, getLastD_eq_kget_last l' b a]
    have hlen : (a :: b :: l').length - 1 = ((b :: l').length - 1) + 1 := by
      simp only [List.length_cons]; omega
    rw [hlen, kget_cons_succ]

theorem head_le_mem :
    ∀ (l : List Key), sortedKeys l → ∀ k ∈ l, (kget l 0).t ≤ k.t
  | [], _, k, hk => absurd hk (List.not_mem_nil k)
  | k0 :: rest, hs, k, hk => by
    rw [sortedKeys, List.pairwise_cons] at hs
    rcases List.mem_cons.1 hk with rfl | hk'
    · simp [kget]
    · have := hs.1 k hk'
      simp only [kget, List.getD_cons_zero]
      linarith

theorem mem_le_last :
    ∀ (l : List Key), sortedKeys l → ∀ k ∈ l, k.t ≤ (kget l (l.length - 1)).t
  | [], _, k, hk => absurd hk (List.not_mem_nil k)
  | [k0], _, k, hk => by
    simp only [List.mem_singleton] at hk
    subst hk
    simp [kget]
  | k0 :: k1 :: rest, hs, k, hk => by
    rw [sortedKeys, List.pairwise_cons] at hs
    obtain ⟨hall, hs'⟩ := hs
    have hlast : kget (k0 :: k1 :: rest) ((k0 :: k1 :: rest).length - 1)
        = kget (k1 :: rest) ((k1 :: rest).length - 1) := by
      have hlen : (k0 :: k1 :: rest).length - 1 = ((k1 :: rest).length - 1) + 1 := by
        simp only [List.length_cons]; omega
      rw [hlen, kget_cons_succ]
    rw [hlast]
    rcases List.mem_cons.1 hk with rfl | hk'
    · have hx1 : k.t < k1.t := hall k1 (List.mem_cons_self _ _)
      have hx2 : k1.t ≤ (kget (k1 :: rest) ((k1 :: rest).length - 1)).t :=
        mem_le_last (k1 :: rest) hs' k1 (List.mem_cons_self _ _)
      linarith
    · exact mem_le_last (k1 :: rest) hs' k hk'

/-- Core lookup lemma: on a sorted tail, taking the last key whose time is
below the query equals indexing with the source's linear scan. -/
theorem stepAux (t : ℚ) :
    ∀ (l : List Key) (prev d : Key), List.Pairwise (fun a b => a.t < b.t) l →
      prev.t ≤ t →
      ((prev :: l).filter fun k => decide (k.t ≤ t)).getLastD d =
        kget (prev :: l) (scanIdx t l)
  | [], prev, d, _, hp => by
    simp [List.filter_cons, hp, scanIdx, kget]
  | k :: rest, prev, d, hpw, hp => by
    rw [List.pairwise_cons] at hpw
    obtain ⟨hkall, hrest⟩ := hpw
    by_cases hk : k.t ≤ t
    · have hsi : scanIdx t (k :: rest) = scanIdx t rest + 1 := by simp [scanIdx, hk]
      rw [hsi]
      have hf1 : (prev :: k :: rest).filter (fun k' => decide (k'.t ≤ t)) =
          prev :: (k :: rest).filter (fun k' => decide (k'.t ≤ t)) := by
        simp [List.filter_cons, hp]
      have hf2 : (k :: rest).filter (fun k' => decide (k'.t ≤ t)) =
          k :: rest.filter (fun k' => decide (k'.t ≤ t)) := by
        simp [List.filter_cons, hk]
      rw [hf1, hf2, List.getLastD_cons, kget_cons_succ]
      have ih := stepAux t rest k prev hrest hk
      rwa [hf2] at ih
    · have ht : t < k.t := not_le.mp hk
      have hsi : scanIdx t (k :: rest) = 0 := by simp [scanIdx, hk]
      rw [hsi]
      have hf2 : (k :: rest).filter (fun k' => decide (k'.t ≤ t)) = [] := by
        rw [List.filter_eq_nil_iff]
        intro a ha hdec
        have hle : a.t ≤ t := by simpa using hdec
        rcases List.mem_cons.1 ha with rfl | ha'
        · linarith
        · have := hkall a ha'
          linarith
      have hf1 : (prev :: k :: rest).filter (fun k' => decide (k'.t ≤ t)) = [prev] := by
        simp [List.filter_cons, hp, hf2]
      rw [hf1]
      simp [kget]

/-- For a nonempty sorted curve the cached `p0` after any `reset` is exactly
the spec's step lookup. -/
theorem reset_p0_stepRef (c : Curve) (t : ℚ) (s : IterState)
    (hs : sortedKeys c.keys) (hne : c.keys ≠ []) :
    (reset c t s).p0 = stepRef c.keys t := by
  by_cases h1 : t < (kget c.keys 0).t
  · rw [reset_before c t s hne h1]
    have hall : ∀ k ∈ c.keys, ¬ (decide (k.t ≤ t) = true) := by
      intro k hk hdec
      have hle : k.t ≤ t := by simpa using hdec
      have := head_le_mem c.keys hs k hk
      linarith
    have hf : c.keys.filter (fun k => decide (k.t ≤ t)) = [] :=
      List.filter_eq_nil_iff.mpr hall
    simp [stepRef, hf]
  · by_cases h2 : (kget c.keys (c.keys.length - 1)).t ≤ t
    · rw [reset_after c t s hne h1 h2]
      have hall : ∀ k ∈ c.keys, decide (k.t ≤ t) = true := by
        intro k hk
        have := mem_le_last c.keys hs k hk
        simp only [decide_eq_true_eq]
        linarith
      have hf : c.keys.filter (fun k => decide (k.t ≤ t)) = c.keys :=
        List.filter_eq_self.mpr hall
      obtain ⟨k0, tl, hkeys⟩ := List.exists_cons_of_ne_nil hne
      rw [stepRef, hf, hkeys, getLastD_eq_kget_last, ← hkeys]
    · rw [reset_interior c t s hne h1 h2]
      obtain ⟨k0, tl, hkeys⟩ := List.exists_cons_of_ne_nil hne
      have hk0 : k0.t ≤ t := by
        have hx := not_lt.mp h1
        rw [hkeys] at hx
        simpa [kget] using hx
      have htl_sorted : List.Pairwise (fun a b => a.t < b.t) tl := by
        have hx := hs
        rw [hkeys, sortedKeys, List.pairwise_cons] at hx
        exact hx.2
      have haux := stepAux t tl k0 (kget (k0 :: tl) 0) htl_sorted hk0
      rw [stepRef, hkeys]
      simp only [List.tail_cons]
      rw [haux]

/-- Evaluate for a Step-typed curve just returns the cached `p0`. -/
theorem evaluate_of_step (c : Curve) (s : IterState)
    (hty : c.type = CurveType.CURVE_STEP) : evaluate c s = some s.p0 := by
  simp [evaluate, hty]

/-! ### Purity and idempotence of reset -/

theorem reset_fields_pure (c : Curve) (t : ℚ) (s s' : IterState) :
    (reset c t s).time_ = (reset c t s').time_ ∧
    (reset c t s).left = (reset c t s').left ∧
    (reset c t s).right = (reset c t s').right ∧
    (reset c t s).recip = (reset c t s').recip ∧
    (reset c t s).p0 = (reset c t s').p0 ∧
    (reset c t s).p1 = (reset c t s').p1 := by
  by_cases hnil : c.keys = []
  · rw [reset_empty c t s hnil, reset_empty c t s' hnil]
    exact ⟨rfl, rfl, rfl, rfl, rfl, rfl⟩
  · by_cases h1 : t < (kget c.keys 0).t
    · rw [reset_before c t s hnil h1, reset_before c t s' hnil h1]
      exact ⟨rfl, rfl, rfl, rfl, rfl, rfl⟩
    · by_cases h2 : (kget c.keys (c.keys.length - 1)).t ≤ t
      · rw [reset_after c t s hnil h1 h2, reset_after c t s' hnil h1 h2]
        exact ⟨rfl, rfl, rfl, rfl, rfl, rfl⟩
      · rw [reset_interior c t s hnil h1 h2, reset_interior c t s' hnil h1 h2]
        exact ⟨rfl, rfl, rfl, rfl, rfl, rfl⟩

theorem reset_pure_of_hermite (c : Curve) (t : ℚ) (s s' : IterState)
    (h : isHermite c.type = true) : reset c t s = reset c t s' := by
  by_cases hnil : c.keys = []
  · rw [reset_empty c t s hnil, reset_empty c t s' hnil]
  · by_cases h1 : t < (kget c.keys 0).t
    · rw [reset_before c t s hnil h1, reset_before c t s' hnil h1]
    · by_cases h2 : (kget c.keys (c.keys.length - 1)).t ≤ t
      · rw [reset_after c t s hnil h1 h2, reset_after c t s' hnil h1 h2]
      · rw [reset_interior c t s hnil h1 h2, reset_interior c t s' hnil h1 h2]
        simp [h]

theorem evaluate_reset_pure (c : Curve) (t : ℚ) (s s' : IterState) :
    evaluate c (reset c t s) = evaluate c (reset c t s') := by
  by_cases hh : isHermite c.type = true
  · rw [reset_pure_of_hermite c t s s' hh]
  · obtain ⟨e1, e2, _, e4, e5, e6⟩ := reset_fields_pure c t s s'
    unfold evaluate
    rw [e1, e2, e4, e5, e6]

theorem reset_idem (c : Curve) (t : ℚ) (s : IterState) :
    reset c t (reset c t s) = reset c t s := by
  by_cases hnil : c.keys = []
  · rw [reset_empty c t (reset c t s) hnil, reset_empty c t s hnil]
  · by_cases h1 : t < (kget c.keys 0).t
    · rw [reset_before c t (reset c t s) hnil h1, reset_before c t s hnil h1]
    · by_cases h2 : (kget c.keys (c.keys.length - 1)).t ≤ t
      · rw [reset_after c t (reset c t s) hnil h1 h2, reset_after c t s hnil h1 h2]
      · rw [reset_interior c t (reset c t s) hnil h1 h2, reset_interior c t s hnil h1 h2]
        by_cases hh : isHermite c.type = true <;> simp [hh]

/-! ### Claim theorems -/

/-- C1, counterexample: on the two-key Step curve, one `advance(10)` from a
fresh iterator at time 0 lands exactly on the cached right bound; `advance`
keeps the stale span and `evaluate` returns 0, while `value(10)` re-seeks and
returns 10. The claim as stated is therefore false. -/
theorem claim1_counterexample :
    advanceRun stepTwoKeys (mkIterator stepTwoKeys 0) [10] ≠
      valueRun stepTwoKeys (mkIterator stepTwoKeys 0) (cumTimes 0 [10]) := by
  norm_num [advanceRun, valueRun, cumTimes, mkIterator, advance, value, reset, initState,
    kget, scanIdx, isHermite, evaluate, XQ.xltq, XQ.qltx, XQ.xleq, stepTwoKeys]

/-- C1, amended: for every curve and every sequence of time increments in
which no `advance` lands exactly on the cached span's right bound, calling
`advance` with each increment and then `evaluate` yields the same results as
calling `value` at the corresponding cumulative times on a fresh iterator. -/
theorem claim1_advance_value_equiv (c : Curve) (t0 : ℚ) (as : List ℚ)
    (h : noRightHit c (mkIterator c t0) as) :
    advanceRun c (mkIterator c t0) as =
      valueRun c (mkIterator c t0) (cumTimes t0 as) := by
  have hrun := advanceRun_eq_valueRun c as (mkIterator c t0)
    (reset_spanInv c t0 (initState t0)) h
  rwa [show (mkIterator c t0).time_ = t0 from reset_time_ c t0 (initState t0)] at hrun

/-- C1, witness: a forward/forward/backward trajectory on the two-key Linear
curve that never touches the right bound. -/
theorem claim1_witness :
    noRightHit linTwoKeys (mkIterator linTwoKeys 0) [3, 4, -2] ∧
    advanceRun linTwoKeys (mkIterator linTwoKeys 0) [3, 4, -2] =
      valueRun linTwoKeys (mkIterator linTwoKeys 0) (cumTimes 0 [3, 4, -2]) := by
  have hnr : noRightHit linTwoKeys (mkIterator linTwoKeys 0) [3, 4, -2] := by
    norm_num [noRightHit, mkIterator, advance, reset, initState, kget, scanIdx,
      isHermite, XQ.xltq, XQ.qltx, XQ.xleq, linTwoKeys]
  exact ⟨hnr, claim1_advance_value_equiv linTwoKeys 0 [3, 4, -2] hnr⟩

/-- C2: the Hermite-family branch of `evaluate` calls the undefined method
`_evaluateHermite2` and therefore throws (modelled as `none`) instead of
returning the cubic Hermite blend; the file's own (never called)
`_evaluateHermite` computes exactly the claimed polynomial. -/
theorem claim2_hermite_branch_throws :
    evaluate catmullTwoKeys (reset catmullTwoKeys 5 (initState 5)) = none ∧
    (∀ p0 p1 m0 m1 t : ℚ,
      evaluateHermite p0 p1 m0 m1 t =
        p0 * ((1 + 2 * t) * (1 - t) ^ 2) + m0 * (t * (1 - t) ^ 2) +
          p1 * (t ^ 2 * (3 - 2 * t)) + m1 * (t ^ 2 * (t - 1))) := by
  constructor
  · simp [evaluate, catmullTwoKeys]
  · intro p0 p1 m0 m1 t
    simp only [evaluateHermite]
    ring

/-- C3: after `reset` on a zero-key curve, `evaluate` returns 0 for the Step,
Linear and Smoothstep kinds, but for a Hermite-family kind it reaches the
branch that calls the undefined `_evaluateHermite2` and throws (modelled as
`none`) instead of returning 0. -/
theorem claim3_empty_curve :
    evaluate emptyStep (reset emptyStep 3 (initState 3)) = some 0 ∧
    evaluate emptyLinear (reset emptyLinear 3 (initState 3)) = some 0 ∧
    evaluate emptySmooth (reset emptySmooth 3 (initState 3)) = some 0 ∧
    evaluate emptyCatmull (reset emptyCatmull 3 (initState 3)) = none := by
  refine ⟨?_, ?_, ?_, ?_⟩ <;>
    simp +decide [evaluate, reset, initState, lerp, emptyStep, emptyLinear, emptySmooth,
      emptyCatmull]

/-- C4: a single-key Hermite-family curve makes `evaluate` throw (modelled as
`none`) instead of returning a finite number, while the division guards do
neutralise coincident key times for the returning kinds. -/
theorem claim4_single_key_hermite_throws :
    evaluate singleCatmull (reset singleCatmull 0 (initState 0)) = none ∧
    evaluate coincidentLinear (reset coincidentLinear 0 (initState 0)) = some 2 := by
  constructor
  · simp [evaluate, singleCatmull]
  · norm_num [evaluate, reset, initState, lerp, kget, coincidentLinear]

/-- C5: for a Step curve with at least one key and strictly increasing key
times, `evaluate` after `reset(t)` returns the value of the greatest key whose
time is at most `t`, or the first key's value when `t` precedes every key. -/
theorem claim5_step_lookup (c : Curve) (t : ℚ) (s : IterState)
    (hs : sortedKeys c.keys) (hne : c.keys ≠ [])
    (hty : c.type = CurveType.CURVE_STEP) :
    evaluate c (reset c t s) = some (stepRef c.keys t) := by
  rw [evaluate_of_step c _ hty, reset_p0_stepRef c t s hs hne]

/-- C5, witness: the three-key Step curve queried at time 12 returns the value
of its key at time 10. -/
theorem claim5_witness :
    sortedKeys stepThreeKeys.keys ∧ stepThreeKeys.keys ≠ [] ∧
    evaluate stepThreeKeys (reset stepThreeKeys 12 (initState 12)) =
      some (stepRef stepThreeKeys.keys 12) ∧
    stepRef stepThreeKeys.keys 12 = 2 := by
  have hs : sortedKeys stepThreeKeys.keys := by
    norm_num [sortedKeys, stepThreeKeys, List.pairwise_cons]
  have hne : stepThreeKeys.keys ≠ [] := by simp [stepThreeKeys]
  refine ⟨hs, hne, claim5_step_lookup stepThreeKeys 12 (initState 12) hs hne rfl, ?_⟩
  norm_num [stepRef, stepThreeKeys, kget, List.filter]

/-- C6, counterexample: `reset(5)` on the two-key Linear curve keeps the prior
`m0` field, so the cached state after `reset` is not a pure function of the
curve contents and the time. -/
theorem claim6_counterexample :
    reset linTwoKeys 5 ⟨0, .negInf, .posInf, 0, 0, 0, 7, 0⟩ ≠
      reset linTwoKeys 5 (initState 0) := by
  simp +decide [reset, initState, kget, scanIdx, isHermite, linTwoKeys]

/-- C6, amended: after `reset(t)` the fields `time_`, `left`, `right`,
`recip`, `p0`, `p1` are pure functions of the curve contents and `t`; so are
`m0` and `m1` whenever the type is Hermite-family (otherwise the in-range
branch may keep prior `m0`/`m1`); the `evaluate()` output after `reset(t)` is
always a pure function of the curve contents and `t`; and calling `reset(t)`
twice yields exactly the state of calling it once. -/
theorem claim6_reset_pure_amended (c : Curve) (t : ℚ) (s s' : IterState) :
    (reset c t s).time_ = (reset c t s').time_ ∧
    (reset c t s).left = (reset c t s').left ∧
    (reset c t s).right = (reset c t s').right ∧
    (reset c t s).recip = (reset c t s').recip ∧
    (reset c t s).p0 = (reset c t s').p0 ∧
    (reset c t s).p1 = (reset c t s').p1 ∧
    (isHermite c.type = true → reset c t s = reset c t s') ∧
    evaluate c (reset c t s) = evaluate c (reset c t s') ∧
    reset c t (reset c t s) = reset c t s := by
  obtain ⟨e1, e2, e3, e4, e5, e6⟩ := reset_fields_pure c t s s'
  exact ⟨e1, e2, e3, e4, e5, e6, reset_pure_of_hermite c t s s',
    evaluate_reset_pure c t s s', reset_idem c t s⟩

/-- C6, witness: the amended purity and idempotence facts instantiated on the
two-key Linear curve with two different prior states. -/
theorem claim6_witness :
    evaluate linTwoKeys (reset linTwoKeys 5 ⟨0, .negInf, .posInf, 0, 0, 0, 7, 0⟩) =
      evaluate linTwoKeys (reset linTwoKeys 5 (initState 0)) ∧
    reset linTwoKeys 5 (reset linTwoKeys 5 (initState 0)) =
      reset linTwoKeys 5 (initState 0) :=
  ⟨(claim6_reset_pure_amended linTwoKeys 5 ⟨0, .negInf, .posInf, 0, 0, 0, 7, 0⟩
      (initState 0)).2.2.2.2.2.2.2.1,
   (claim6_reset_pure_amended linTwoKeys 5 (initState 0) (initState 0)).2.2.2.2.2.2.2.2⟩

/-- C7: `advance(amount)` adds the amount to the time; it performs a full
`reset` exactly when moving forward strictly past `right` or backward strictly
below `left`; in every other case all cached fields are unchanged. -/
theorem claim7_advance_frame_effect (c : Curve) (s : IterState) (a : ℚ) :
    (advance c s a).time_ = s.time_ + a ∧
    (((0 ≤ a ∧ s.right.xltq (s.time_ + a) = true) ∨
        (a < 0 ∧ XQ.qltx (s.time_ + a) s.left = true)) →
      advance c s a = reset c (s.time_ + a) s) ∧
    (¬ ((0 ≤ a ∧ s.right.xltq (s.time_ + a) = true) ∨
        (a < 0 ∧ XQ.qltx (s.time_ + a) s.left = true)) →
      (advance c s a).left = s.left ∧ (advance c s a).right = s.right ∧
      (advance c s a).recip = s.recip ∧ (advance c s a).p0 = s.p0 ∧
      (advance c s a).p1 = s.p1 ∧ (advance c s a).m0 = s.m0 ∧
      (advance c s a).m1 = s.m1) := by
  refine ⟨advance_time_ c s a, ?_, ?_⟩
  · rintro (⟨ha, hr⟩ | ⟨ha, hl⟩)
    · have hadv : advance c s a = reset c (s.time_ + a) { s with time_ := s.time_ + a } := by
        simp [advance, ha, hr]
      rw [hadv]; exact reset_m_congr c _ rfl rfl
    · have hna : ¬ 0 ≤ a := not_le.mpr ha
      have hadv : advance c s a = reset c (s.time_ + a) { s with time_ := s.time_ + a } := by
        simp [advance, hna, hl]
      rw [hadv]; exact reset_m_congr c _ rfl rfl
  · intro h
    by_cases ha : 0 ≤ a
    · have hr : s.right.xltq (s.time_ + a) = false := by
        rcases Bool.eq_false_or_eq_true (s.right.xltq (s.time_ + a)) with ht2 | hf
        · exact absurd (Or.inl ⟨ha, ht2⟩) h
        · exact hf
      have hadv : advance c s a = { s with time_ := s.time_ + a } := by
        simp [advance, ha, hr]
      rw [hadv]; exact ⟨rfl, rfl, rfl, rfl, rfl, rfl, rfl⟩
    · have hl : XQ.qltx (s.time_ + a) s.left = false := by
        rcases Bool.eq_false_or_eq_true (XQ.qltx (s.time_ + a) s.left) with ht2 | hf
        · exact absurd (Or.inr ⟨not_le.mp ha, ht2⟩) h
        · exact hf
      have hadv : advance c s a = { s with time_ := s.time_ + a } := by
        simp [advance, ha, hl]
      rw [hadv]; exact ⟨rfl, rfl, rfl, rfl, rfl, rfl, rfl⟩

/-- C7, witness: advancing the fresh Linear iterator by 20 crosses the right
bound 10 and performs a full reset. -/
theorem claim7_witness :
    (0 ≤ (20 : ℚ) ∧
      (mkIterator linTwoKeys 0).right.xltq ((mkIterator linTwoKeys 0).time_ + 20) = true) ∧
    advance linTwoKeys (mkIterator linTwoKeys 0) 20 =
      reset linTwoKeys ((mkIterator linTwoKeys 0).time_ + 20) (mkIterator linTwoKeys 0) := by
  have hcond : 0 ≤ (20 : ℚ) ∧
      (mkIterator linTwoKeys 0).right.xltq ((mkIterator linTwoKeys 0).time_ + 20) = true := by
    refine ⟨by norm_num, ?_⟩
    norm_num [mkIterator, reset, initState, kget, scanIdx, isHermite, XQ.xltq, linTwoKeys]
  exact ⟨hcond,
    (claim7_advance_frame_effect linTwoKeys (mkIterator linTwoKeys 0) 20).2.1 (Or.inl hcond)⟩

/-- C8: for a CardinalStable curve with strictly increasing key times, at
least two keys and a query time strictly inside the key range, `reset` caches
the span `[b.t, c.t)` selected by the scan and computes
`m0 = tension * s1 * (c.v - a.v)` and `m1 = tension * s2 * (d.v - b.v)` with
`s1 = 2(c.t - b.t)/(c.t - a.t)` and `s2 = 2(c.t - b.t)/(d.t - b.t)`, each
guarded to 0 on a zero denominator, where `a` (resp. `d`) is the key left
(right) of the span, synthesised by linear extrapolation at the ends. -/
theorem claim8_cardinal_stable_tangents (c : Curve) (t : ℚ) (s : IterState)
    (hty : c.type = CurveType.CURVE_CARDINAL_STABLE)
    (hs : sortedKeys c.keys) (hlen : 2 ≤ c.keys.length)
    (h1 : (kget c.keys 0).t ≤ t) (h2 : t < (kget c.keys (c.keys.length - 1)).t) :
    let i := scanIdx t c.keys.tail
    let b := kget c.keys i
    let cc := kget c.keys (i + 1)
    let a : Key :=
      if i = 0 then
        ⟨(kget c.keys 0).t + ((kget c.keys 0).t - (kget c.keys 1).t),
         (kget c.keys 0).v + ((kget c.keys 0).v - (kget c.keys 1).v)⟩
      else kget c.keys (i - 1)
    let d : Key :=
      if i = c.keys.length - 2 then ⟨cc.t + (cc.t - b.t), cc.v + (cc.v - b.v)⟩
      else kget c.keys (i + 2)
    (reset c t s).left = .fin b.t ∧
    (reset c t s).right = .fin cc.t ∧
    (reset c t s).m0 =
      c.tension * (if cc.t - a.t = 0 then 0 else 2 * (cc.t - b.t) / (cc.t - a.t)) *
        (cc.v - a.v) ∧
    (reset c t s).m1 =
      c.tension * (if d.t - b.t = 0 then 0 else 2 * (cc.t - b.t) / (d.t - b.t)) *
        (d.v - b.v) := by
  have hne : c.keys ≠ [] := by
    intro hnil
    rw [hnil] at hlen
    simp at hlen
  have hres := reset_interior c t s hne (not_lt.mpr h1) (not_le.mpr h2)
  have hherm : isHermite c.type = true := by rw [hty]; rfl
  rw [hres]
  simp +decide [hherm, calcTangents, hty, isHermite]

/-- C8, witness: the four-key CardinalStable curve at time 12 has span
`[10, 20)` and tangents `m0 = 5/2`, `m1 = 7/3`. -/
theorem claim8_witness :
    (reset cardStableFour 12 (initState 12)).left = .fin 10 ∧
    (reset cardStableFour 12 (initState 12)).right = .fin 20 ∧
    (reset cardStableFour 12 (initState 12)).m0 = 5 / 2 ∧
    (reset cardStableFour 12 (initState 12)).m1 = 7 / 3 := by
  have hs : sortedKeys cardStableFour.keys := by
    norm_num [sortedKeys, cardStableFour, List.pairwise_cons]
  have h := claim8_cardinal_stable_tangents cardStableFour 12 (initState 12) rfl hs
    (by norm_num [cardStableFour]) (by norm_num [cardStableFour, kget])
    (by norm_num [cardStableFour, kget])
  obtain ⟨hl, hr, hm0, hm1⟩ := h
  have hidx : scanIdx 12 cardStableFour.keys.tail = 1 := by
    norm_num [cardStableFour, scanIdx]
  rw [hidx] at hl hr hm0 hm1
  refine ⟨?_, ?_, ?_, ?_⟩
  · rw [hl]; norm_num [cardStableFour, kget]
  · rw [hr]; norm_num [cardStableFour, kget]
  · rw [hm0]; norm_num [cardStableFour, kget]
  · rw [hm1]; norm_num [cardStableFour, kget]

/-- C9: for strictly increasing key times and a query time inside the key
range, the linear scan stops strictly below `len - 1` and every key index that
`reset` and `_calcTangents` can read is within bounds. -/
theorem claim9_scan_bounds (keys : List Key) (t : ℚ)
    (hs : sortedKeys keys)
    (h1 : (kget keys 0).t ≤ t) (h2 : t < (kget keys (keys.length - 1)).t) :
    scanIdx t keys.tail < keys.length - 1 ∧
    scanIdx t keys.tail + 1 < keys.length ∧
    (scanIdx t keys.tail ≠ 0 → scanIdx t keys.tail - 1 < keys.length) ∧
    (scanIdx t keys.tail ≠ keys.length - 2 → scanIdx t keys.tail + 2 < keys.length) := by
  have hne : keys ≠ [] := by
    intro hnil
    subst hnil
    simp [kget] at h1 h2
    linarith
  have hlenpos : 0 < keys.length := List.length_pos.mpr hne
  have hfacts := interior_facts keys t hne (not_lt.mpr h1) (not_le.mpr h2)
  have hlt := hfacts.1
  exact ⟨hlt, by omega, fun _ => by omega, fun hmid => by omega⟩

/-- C9, witness: the three-key Step curve at time 15 has scan index 1 and all
accesses within bounds. -/
theorem claim9_witness :
    sortedKeys stepThreeKeys.keys ∧
    (kget stepThreeKeys.keys 0).t ≤ 15 ∧
    15 < (kget stepThreeKeys.keys (stepThreeKeys.keys.length - 1)).t ∧
    scanIdx 15 stepThreeKeys.keys.tail < stepThreeKeys.keys.length - 1 ∧
    scanIdx 15 stepThreeKeys.keys.tail + 1 < stepThreeKeys.keys.length := by
  have hs : sortedKeys stepThreeKeys.keys := by
    norm_num [sortedKeys, stepThreeKeys, List.pairwise_cons]
  have h1 : (kget stepThreeKeys.keys 0).t ≤ 15 := by norm_num [stepThreeKeys, kget]
  have h2 : 15 < (kget stepThreeKeys.keys (stepThreeKeys.keys.length - 1)).t := by
    norm_num [stepThreeKeys, kget]
  have hb := claim9_scan_bounds stepThreeKeys.keys 15 hs h1 h2
  exact ⟨hs, h1, h2, hb.1, hb.2.1⟩

/-- C10: immediately after `reset(t)` the span invariant `left ≤ time_ < right`
holds in the extended order, for every curve, every time and every prior
state. -/
theorem claim10_span_invariant (c : Curve) (t : ℚ) (s : IterState) :
    (reset c t s).time_ = t ∧
    (reset c t s).left.xleq t = true ∧
    XQ.qltx t (reset c t s).right = true := by
  have h := reset_spanInv c t s
  rw [spanInv, reset_time_] at h
  exact ⟨reset_time_ c t s, h.1, h.2⟩

end CurveIter
